import Mathlib

/-!
# Verification of the PyLDL incomplete-LDL core (`pyldl/algorithms/_incomplete.py`,
  `pyldl/algorithms/utils.py`)

Shallow embedding of the incomplete label-distribution-learning algorithms
`IncomLDL` and `WInLDL` and of the standalone utility primitives `svt` and
`proj`.  Real-valued numpy arrays are modelled as rationals / reals; rows are
lists or functions out of `Fin`.  External numerical routines
(`np.linalg.svd`, `np.linalg.solve`, `np.linalg.pinv`, `qpsolvers.solve_qp`)
are modelled as explicit oracle parameters: deterministic functions whose
output is constrained, where a claim needs it, by the documented contract
of the routine.
-/

namespace PyLDL

/-! ## The simplex projection (`WInLDL.proj` / `utils.proj`)

Source (`_incomplete.py` lines 50-57, identically `utils.py` lines 15-20):
```
X = -np.sort(-Y, axis=1)
Xtmp = (np.cumsum(X, axis=1) - 1) / np.arange(1, Y.shape[1] + 1)
rho = np.sum(X > Xtmp, axis=1) - 1
theta = Xtmp[np.arange(Y.shape[0]), rho]
X = np.maximum(Y - theta[:, np.newaxis], 0)
```
A row is a `List α` for a linear ordered field `α`; the matrix is a list of
rows.  `-np.sort(-Y)` sorts each row in descending order. -/

variable {α : Type} [LinearOrderedField α]

/-- Descending sort of one row: `-np.sort(-Y, axis=1)` applied to that row. -/
def sortDesc (l : List α) : List α :=
  l.insertionSort (· ≥ ·)

/-- Entry `k` of `Xtmp` for one (sorted) row: `(np.cumsum(X) - 1) / np.arange(1, c+1)`
at index `k`, i.e. the sum of the first `k+1` entries minus one, divided by `k+1`. -/
def cumTmp (l : List α) (k : ℕ) : α :=
  ((l.take (k + 1)).sum - 1) / ((k : α) + 1)

/-- Count `np.sum(X > Xtmp)` for one sorted row: the number of indices `k` with
`X[k] > Xtmp[k]` (strict comparison, exactly as in the source). -/
def goodCount (l : List α) : ℕ :=
  ((List.range l.length).filter (fun k => decide (cumTmp l k < l.getD k 0))).length

/-- Index `rho` for one row, as the Python `int` value `np.sum(X > Xtmp) - 1`.
(`goodCount` is proved positive for nonempty rows, so the integer value is
the natural number `goodCount - 1` on every input the code reaches.) -/
def rhoInt (l : List α) : ℤ :=
  (goodCount (sortDesc l) : ℤ) - 1

/-- Threshold `theta` for one row: `Xtmp[i, rho]` of the descending-sorted row. -/
def projTheta (l : List α) : α :=
  cumTmp (sortDesc l) (goodCount (sortDesc l) - 1)

/-- One row of the output: `np.maximum(Y - theta, 0)`. -/
def projRow (l : List α) : List α :=
  l.map (fun y => max (y - projTheta l) 0)

/-- Function `WInLDL.proj` (`_incomplete.py` lines 50-57): the row-wise simplex
projection of a matrix, rows as lists. -/
def proj (Y : List (List α)) : List (List α) :=
  Y.map projRow

/-- The list of divisors `np.arange(1, Y.shape[1] + 1)` used by `proj`. -/
def projDivisors (c : ℕ) : List ℕ :=
  (List.range c).map (fun k => k + 1)

/-! Standalone `utils.proj` (`utils.py` lines 15-20).  The body is the same
numpy code as `WInLDL.proj`; the shared numpy primitives (`np.sort`,
`np.cumsum`, comparison count) are the shared definitions above. -/

/-- Threshold `theta` of `utils.proj` for one row. -/
def utilsProjTheta (l : List α) : α :=
  cumTmp (sortDesc l) (goodCount (sortDesc l) - 1)

/-- A single output row of `utils.proj`. -/
def utilsProjRow (l : List α) : List α :=
  l.map (fun y => max (y - utilsProjTheta l) 0)

/-- Function `utils.proj` (`utils.py` lines 15-20). -/
def utilsProj (Y : List (List α)) : List (List α) :=
  Y.map utilsProjRow

/-! ## List-level matrix product and `WInLDL.predict`

`X @ W` for a feature matrix `X` (rows as lists) and weight matrix `W`
(list of `d` rows of length `c`). -/

/-- One row of `x @ W`: entry `j` is `∑ k, x[k] * W[k][j]`. -/
def rowMatMul (x : List α) (W : List (List α)) : List α :=
  (List.range ((W.headD []).length)).map
    (fun j => ((x.zip W).map (fun p => p.1 * (p.2.getD j 0))).sum)

/-- Product `X @ W` with rows as lists. -/
def matMulL (X W : List (List α)) : List (List α) :=
  X.map (fun r => rowMatMul r W)

/-- Method `WInLDL.predict` (`_incomplete.py` lines 84-85): `self.proj(X @ self._W)`. -/
def predictL (X W : List (List α)) : List (List α) :=
  proj (matMulL X W)

/-! ## Matrices as functions, for the fitting pipelines

Dense real matrices are functions `Fin n → Fin c → ℝ`; `+`, `-`, scalar `•`
are pointwise (the `Pi` instances). -/

/-- Transpose, `np.transpose`. -/
def transp {n m : ℕ} (A : Fin n → Fin m → ℝ) : Fin m → Fin n → ℝ :=
  fun i j => A j i

/-- Matrix product `A @ B`. -/
noncomputable def mulMat {n m p : ℕ} (A : Fin n → Fin m → ℝ) (B : Fin m → Fin p → ℝ) :
    Fin n → Fin p → ℝ :=
  fun i j => ∑ k, A i k * B k j

/-- Diagonal matrix `np.diag` of a vector. -/
def diagM {n : ℕ} (f : Fin n → ℝ) : Fin n → Fin n → ℝ :=
  fun i j => if i = j then f i else 0

/-- Identity matrix `np.eye`. -/
def idM (n : ℕ) : Fin n → Fin n → ℝ :=
  diagM (fun _ => 1)

/-- Modelled from the spec: `BaseIncomLDL.fit` (in `pyldl/algorithms/base.py`,
not under `src/`) stores the label matrix with unobserved entries zeroed —
the data model states that "unobserved entries hold placeholder values
ignored via the mask", and both strategies read the stored `self._y`
directly (e.g. `Y = (X @ W) * (1 - mask) + self._y`), which is meaningful
only for a mask-zeroed label matrix. -/
def maskedY {n c : ℕ} (y mask : Fin n → Fin c → ℝ) : Fin n → Fin c → ℝ :=
  fun i j => y i j * mask i j

/-- The iteration state `(W, Z, V)` owned by the ADMM engine. -/
def AdmmState (n d c : ℕ) : Type :=
  (Fin d → Fin c → ℝ) × (Fin n → Fin c → ℝ) × (Fin n → Fin c → ℝ)

/-- Oracle for `np.linalg.svd(A, full_matrices=False)`: a deterministic
function returning `(U, S, VT)` with inner dimension `min n c`. -/
def SvdOracle (n c : ℕ) : Type :=
  (Fin n → Fin c → ℝ) →
    (Fin n → Fin (min n c) → ℝ) × (Fin (min n c) → ℝ) × (Fin (min n c) → Fin c → ℝ)

/-- Oracle for `qpsolvers.solve_qp(P, q, G, h, A, b)` (quadprog backend) with
the fixed simplex constraint data `G, h, A, b` built in `_update_W`. -/
def QpOracle (c : ℕ) : Type :=
  (Fin c → Fin c → ℝ) → (Fin c → ℝ) → (Fin c → ℝ)

/-- Oracle for `np.linalg.pinv`. -/
def PinvOracle (d : ℕ) : Type :=
  (Fin d → Fin d → ℝ) → (Fin d → Fin d → ℝ)

/-- Oracle for `np.linalg.solve(A, B)` with an `n_features × n_outputs`
right-hand side. -/
def SolveOracle (d c : ℕ) : Type :=
  (Fin d → Fin d → ℝ) → (Fin d → Fin c → ℝ) → (Fin d → Fin c → ℝ)

namespace IncomLDL

/-- Method `IncomLDL.svt` (`_incomplete.py` lines 12-16): soft-threshold the
singular values and reconstruct, `U @ np.diag(np.maximum(S - tau, 0)) @ VT`. -/
noncomputable def svt {n c : ℕ} (svdO : SvdOracle n c) (A : Fin n → Fin c → ℝ) (tau : ℝ) :
    Fin n → Fin c → ℝ :=
  mulMat (mulMat (svdO A).1 (diagM (fun i => max ((svdO A).2.1 i - tau) 0))) (svdO A).2.2

/-- The diagonal QP matrix of `_update_W` line 28:
`np.diag((1 + rho) * mask[i] + rho * (1 - mask[i]))`. -/
def pRow {c : ℕ} (rho : ℝ) (m : Fin c → ℝ) : Fin c → Fin c → ℝ :=
  diagM (fun j => (1 + rho) * m j + rho * (1 - m j))

/-- The QP linear term of `_update_W` lines 29-31:
`ql = (V[i] - y[i]*mask[i] - rho*Z[i]) * mask[i]`,
`qr = (V[i] - rho*Z[i]) * (1 - mask[i])`, `q = ql + qr`. -/
def qRow {c : ℕ} (rho : ℝ) (v yv z m : Fin c → ℝ) : Fin c → ℝ :=
  fun j => (v j - yv j * m j - rho * z j) * m j + (v j - rho * z j) * (1 - m j)

/-- Method `IncomLDL._update_W` (`_incomplete.py` lines 18-34): solve the per-row QP
through the solver oracle, stack into `M`, then
`W = pinv(X^T X) @ X^T @ M`. -/
noncomputable def updateW {n d c : ℕ} (qpO : QpOracle c) (pinvO : PinvOracle d)
    (X : Fin n → Fin d → ℝ) (Ym mask Z V : Fin n → Fin c → ℝ) (rho : ℝ) :
    Fin d → Fin c → ℝ :=
  let M : Fin n → Fin c → ℝ :=
    fun i => qpO (pRow rho (mask i)) (qRow rho (V i) (Ym i) (Z i) (mask i))
  mulMat (mulMat (pinvO (mulMat (transp X) X)) (transp X)) M

/-- Method `IncomLDL._update_Z` (`_incomplete.py` lines 36-39):
`Z = svt(X @ W + V / rho, alpha / rho)`. -/
noncomputable def updateZ {n d c : ℕ} (svdO : SvdOracle n c)
    (X : Fin n → Fin d → ℝ) (W : Fin d → Fin c → ℝ) (V : Fin n → Fin c → ℝ)
    (rho alpha : ℝ) : Fin n → Fin c → ℝ :=
  svt svdO (mulMat X W + (1 / rho) • V) (alpha / rho)

/-- Modelled from the spec: the dual ascent of the ADMM engine
(`BaseADMM._update_V`, not under `src/`): `V ← V + rho * (X @ W - Z)`
(spec section 4.4, transition (c)). -/
noncomputable def updateV {n d c : ℕ} (X : Fin n → Fin d → ℝ) (W : Fin d → Fin c → ℝ)
    (Z V : Fin n → Fin c → ℝ) (rho : ℝ) : Fin n → Fin c → ℝ :=
  V + rho • (mulMat X W - Z)

/-- One full ADMM cycle of `IncomLDL`: update `W` from the current `Z, V`,
then `Z` from the new `W`, then `V` by dual ascent (spec section 4.4,
order (a), (b), (c)). -/
noncomputable def step {n d c : ℕ} (qpO : QpOracle c) (pinvO : PinvOracle d)
    (svdO : SvdOracle n c) (X : Fin n → Fin d → ℝ) (Ym mask : Fin n → Fin c → ℝ)
    (rho alpha : ℝ) (s : AdmmState n d c) : AdmmState n d c :=
  let W := updateW qpO pinvO X Ym mask s.2.1 s.2.2 rho
  let Z := updateZ svdO X W s.2.2 rho alpha
  let V := updateV X W Z s.2.2 rho
  (W, Z, V)

/-- Modelled from the spec: the fixed-budget iteration of the ADMM engine
(`BaseADMM.fit`, not under `src/`): initialize `W, Z, V` to zero and run
exactly `T` cycles (spec section 4.4: zero startup values, no early
stopping).  Takes the already-stored (mask-zeroed) label matrix. -/
noncomputable def fitFromMasked {n d c : ℕ} (qpO : QpOracle c) (pinvO : PinvOracle d)
    (svdO : SvdOracle n c) (X : Fin n → Fin d → ℝ) (Ym mask : Fin n → Fin c → ℝ)
    (rho alpha : ℝ) (T : ℕ) : AdmmState n d c :=
  (step qpO pinvO svdO X Ym mask rho alpha)^[T] (0, 0, 0)

/-- Method `IncomLDL.fit`: store the mask-zeroed label matrix (see `maskedY`) and
run the ADMM loop; the fitted model is the final `W`. -/
noncomputable def fit {n d c : ℕ} (qpO : QpOracle c) (pinvO : PinvOracle d)
    (svdO : SvdOracle n c) (X : Fin n → Fin d → ℝ) (y mask : Fin n → Fin c → ℝ)
    (rho alpha : ℝ) (T : ℕ) : Fin d → Fin c → ℝ :=
  (fitFromMasked qpO pinvO svdO X (maskedY y mask) mask rho alpha T).1

end IncomLDL

/-- Function `utils.svt` (`utils.py` lines 9-12).  The body is the same numpy code as
`IncomLDL.svt`. -/
noncomputable def utilsSvt {n c : ℕ} (svdO : SvdOracle n c) (A : Fin n → Fin c → ℝ)
    (tau : ℝ) : Fin n → Fin c → ℝ :=
  mulMat (mulMat (svdO A).1 (diagM (fun i => max ((svdO A).2.1 i - tau) 0))) (svdO A).2.2

namespace WInLDL

/-- Count `np.count_nonzero(self._y, axis=0)` at column `j`. -/
noncomputable def avgCount {n c : ℕ} (Y : Fin n → Fin c → ℝ) (j : Fin c) : ℕ :=
  (Finset.univ.filter (fun i => Y i j ≠ 0)).card

/-- Method `WInLDL._before_train`, line 78:
`avg = np.sum(self._y, axis=0) / np.count_nonzero(self._y, axis=0)`,
with IEEE semantics made explicit: when the nonzero count of a column is
zero the numerator is also zero and numpy produces `0.0 / 0 = NaN`,
modelled as `none`. -/
noncomputable def avgOpt {n c : ℕ} (Y : Fin n → Fin c → ℝ) (j : Fin c) : Option ℝ :=
  if avgCount Y j = 0 then none else some ((∑ i, Y i j) / (avgCount Y j : ℝ))

/-- Total stand-in for `avg` used inside the iteration pipeline; it agrees
with `avgOpt` whenever the latter is defined (and takes the Lean convention `x / 0 = 0`
convention, i.e. the value `0`, on the NaN case, which `avgOpt` isolates). -/
noncomputable def avgP {n c : ℕ} (Y : Fin n → Fin c → ℝ) (j : Fin c) : ℝ :=
  (∑ i, Y i j) / (avgCount Y j : ℝ)

/-- Method `WInLDL._before_train`, line 79: `Q1 = np.exp2(1 - self._y) * self._mask`,
i.e. `2 ^ (1 - y[i,j])` at observed entries and `0` elsewhere. -/
noncomputable def Q1 {n c : ℕ} (Y mask : Fin n → Fin c → ℝ) : Fin n → Fin c → ℝ :=
  fun i j => (2 : ℝ) ^ (1 - Y i j) * mask i j

/-- Method `WInLDL._update_Q`, lines 73-74:
`a = 1 + self._current_iteration / self._max_iterations` and
`Q2 = np.power(a, np.tile(avg, (n, 1))) * (1 - mask)`. -/
noncomputable def Q2 {n c : ℕ} (Y mask : Fin n → Fin c → ℝ) (t T : ℕ) :
    Fin n → Fin c → ℝ :=
  fun i j => (1 + (t : ℝ) / (T : ℝ)) ^ (avgP Y j) * (1 - mask i j)

/-- Term `Q2` with the NaN of an undefined per-label average propagated:
`np.power(a, NaN) = NaN` and `NaN * x = NaN`, so an entry is `none` exactly
when its column average is `NaN`. -/
noncomputable def Q2opt {n c : ℕ} (Y mask : Fin n → Fin c → ℝ) (t T : ℕ)
    (i : Fin n) (j : Fin c) : Option ℝ :=
  (avgOpt Y j).map (fun a => (1 + (t : ℝ) / (T : ℝ)) ^ a * (1 - mask i j))

/-- Method `WInLDL._update_Q`, line 75: `Q = Q1 + Q2`. -/
noncomputable def Qmat {n c : ℕ} (Y mask : Fin n → Fin c → ℝ) (t T : ℕ) :
    Fin n → Fin c → ℝ :=
  Q1 Y mask + Q2 Y mask t T

/-- Method `WInLDL._update_W` (`_incomplete.py` lines 59-63):
`W = np.linalg.solve(X^T X + 1e-5 * eye(d), X^T (Z - V / rho))` through the
solver oracle. -/
noncomputable def updateW {n d c : ℕ} (solveO : SolveOracle d c)
    (X : Fin n → Fin d → ℝ) (Z V : Fin n → Fin c → ℝ) (rho : ℝ) :
    Fin d → Fin c → ℝ :=
  solveO (mulMat (transp X) X + (1 / 100000 : ℝ) • idM d)
    (mulMat (transp X) (Z - (1 / rho) • V))

/-- Row-wise application of the simplex projection to a function-matrix:
each row is projected exactly as by `proj` (the row is passed through
`projRow`; `projRow` preserves length, so the `getD` reads the projected
entry). -/
noncomputable def projMat {n c : ℕ} (M : Fin n → Fin c → ℝ) : Fin n → Fin c → ℝ :=
  fun i j => (projRow (List.ofFn (M i))).getD (j : ℕ) 0

/-- Method `WInLDL._update_Z` (`_incomplete.py` lines 65-70): recompute `Q` for the
current iteration, build `Y = (X @ W) * (1 - mask) + self._y`, and set
`Z = proj((rho * X @ W + V + Q * Q * Y) / (Q * Q + rho))` (all entrywise). -/
noncomputable def updateZ {n d c : ℕ} (X : Fin n → Fin d → ℝ) (W : Fin d → Fin c → ℝ)
    (V Ym mask : Fin n → Fin c → ℝ) (rho : ℝ) (t T : ℕ) : Fin n → Fin c → ℝ :=
  let Q := Qmat Ym mask t T
  let Yrec : Fin n → Fin c → ℝ :=
    fun i j => (mulMat X W) i j * (1 - mask i j) + Ym i j
  projMat (fun i j =>
    (rho * (mulMat X W) i j + V i j + Q i j * Q i j * Yrec i j) /
      (Q i j * Q i j + rho))

/-- One full ADMM cycle of `WInLDL` at iteration counter `t` (spec section
4.4: `W`, then `Z` (which calls `_update_Q` with the current counter), then
the dual ascent on `V`, modelled from the spec as for `IncomLDL`). -/
noncomputable def step {n d c : ℕ} (solveO : SolveOracle d c)
    (X : Fin n → Fin d → ℝ) (Ym mask : Fin n → Fin c → ℝ) (rho : ℝ) (T : ℕ)
    (s : AdmmState n d c) (t : ℕ) : AdmmState n d c :=
  let W := updateW solveO X s.2.1 s.2.2 rho
  let Z := updateZ X W s.2.2 Ym mask rho t T
  let V := s.2.2 + rho • (mulMat X W - Z)
  (W, Z, V)

/-- Modelled from the spec: the fixed-budget ADMM loop for `WInLDL`
(`BaseADMM.fit`, not under `src/`): zero startup values, iteration counter
running `0, 1, …, T-1`, no early stopping (spec section 4.4). -/
noncomputable def fitFromMasked {n d c : ℕ} (solveO : SolveOracle d c)
    (X : Fin n → Fin d → ℝ) (Ym mask : Fin n → Fin c → ℝ) (rho : ℝ) (T : ℕ) :
    AdmmState n d c :=
  (List.range T).foldl (step solveO X Ym mask rho T) (0, 0, 0)

/-- Method `WInLDL.fit`: store the mask-zeroed label matrix (see `maskedY`) and run
the ADMM loop; the fitted model is the final `W`. -/
noncomputable def fit {n d c : ℕ} (solveO : SolveOracle d c)
    (X : Fin n → Fin d → ℝ) (y mask : Fin n → Fin c → ℝ) (rho : ℝ) (T : ℕ) :
    Fin d → Fin c → ℝ :=
  (fitFromMasked solveO X (maskedY y mask) mask rho T).1

end WInLDL

/-! ## The per-row quadratic program of `IncomLDL._update_W`

Constraint data from `_incomplete.py` lines 20-23:
`G = -eye(c)`, `h = 0`, `A = ones(1, c)`, `b = [1.]`, so the feasible set is
`{z | -z ≤ 0, sum z = 1}`.  `solve_qp` minimizes `½ zᵀPz + qᵀz` over it; a
solution is modelled by the documented contract of the solver: a feasible global
minimizer. -/

/-- Constraint matrix `G = -np.eye(c)`. -/
def Gmat (c : ℕ) : Fin c → Fin c → ℝ :=
  fun i j => -(if i = j then 1 else 0)

/-- Constraint vector `h = np.zeros(c)`. -/
def hVec (c : ℕ) : Fin c → ℝ :=
  fun _ => 0

/-- Constraint matrix `A = np.ones((1, c))`. -/
def Acons (c : ℕ) : Fin 1 → Fin c → ℝ :=
  fun _ _ => 1

/-- Constraint vector `b = np.array([1.])`. -/
def bCons : Fin 1 → ℝ :=
  fun _ => 1

/-- The feasible set of the QP: `G z ≤ h` and `A z = b`. -/
def qpFeasible (c : ℕ) : Set (Fin c → ℝ) :=
  {z | (∀ i, (∑ j, Gmat c i j * z j) ≤ hVec c i) ∧
       (∀ i, (∑ j, Acons c i j * z j) = bCons i)}

/-- The objective `½ zᵀPz + qᵀz` minimized by `solve_qp`. -/
noncomputable def qpObj {c : ℕ} (P : Fin c → Fin c → ℝ) (q z : Fin c → ℝ) : ℝ :=
  (1 / 2) * (∑ i, ∑ j, z i * P i j * z j) + ∑ j, q j * z j

/-- The contract of `qpsolvers.solve_qp`: the returned vector is feasible
and globally minimizes the objective over the feasible set. -/
noncomputable def IsQpSolution {c : ℕ} (P : Fin c → Fin c → ℝ) (q z : Fin c → ℝ) : Prop :=
  z ∈ qpFeasible c ∧ ∀ w ∈ qpFeasible c, qpObj P q z ≤ qpObj P q w

/-! ## Helper lemmas: the count `np.sum(X > Xtmp)` selects a prefix of the
descending-sorted row -/

/-- A Boolean predicate on `{0, …, n-1}` that is downward closed holds
everywhere below any point where it holds. -/
theorem down_all_bool (p : ℕ → Bool) (n : ℕ)
    (hdc : ∀ k, k + 1 < n → p (k + 1) = true → p k = true) :
    ∀ m, m < n → p m = true → ∀ j, j ≤ m → p j = true := by
  intro m
  induction m using Nat.strong_induction_on with
  | _ m ih =>
    intro hm hpm j hj
    rcases Nat.eq_or_lt_of_le hj with rfl | hjm
    · exact hpm
    · obtain ⟨m', rfl⟩ : ∃ m', m = m' + 1 := ⟨m - 1, by omega⟩
      exact ih m' (by omega) (by omega) (hdc m' hm hpm) j (by omega)

/-- Filtering `range n` by a downward-closed predicate yields an initial
segment: the filtered list is `range` of its own length. -/
theorem filter_range_downclosed (p : ℕ → Bool) (n : ℕ)
    (hdc : ∀ k, k + 1 < n → p (k + 1) = true → p k = true) :
    (List.range n).filter p = List.range (((List.range n).filter p).length) := by
  induction n with
  | zero => simp
  | succ m ih =>
    rw [List.range_succ, List.filter_append]
    by_cases hm : p m = true
    · have hall : ∀ a ∈ List.range (m + 1), p a = true := by
        intro a ha
        have ha' : a ≤ m := by
          have := List.mem_range.mp ha
          omega
        exact down_all_bool p (m + 1) hdc m (Nat.lt_succ_self m) hm a ha'
      have h1 : (List.range m).filter p = List.range m :=
        List.filter_eq_self.mpr
          (fun a ha => hall a (List.mem_range.mpr (by
            have := List.mem_range.mp ha
            omega)))
      have h2 : [m].filter p = [m] := by simp [hm]
      rw [h1, h2, ← List.range_succ]
      simp
    · have h2 : [m].filter p = [] := by
        simp [List.filter_singleton, hm]
      rw [h2, List.append_nil]
      exact ih (fun k hk hpk => hdc k (by omega) hpk)

/-- Entries of a descending-sorted list are antitone in the index. -/
theorem sorted_getD_anti {xs : List α} (hs : List.Sorted (· ≥ ·) xs)
    {i j : ℕ} (hij : i ≤ j) (hj : j < xs.length) : xs.getD j 0 ≤ xs.getD i 0 := by
  have hi : i < xs.length := lt_of_le_of_lt hij hj
  rcases Nat.eq_or_lt_of_le hij with rfl | hlt
  · exact le_refl _
  · rw [List.getD_eq_get xs 0 hi, List.getD_eq_get xs 0 hj]
    exact hs.rel_get_of_lt (Fin.mk_lt_mk.mpr hlt)

/-- Splitting lemma `(l.take (k+1)).sum = (l.take k).sum + l.getD k 0` for an in-range `k`. -/
theorem take_succ_sum {l : List α} {k : ℕ} (hk : k < l.length) :
    (l.take (k + 1)).sum = (l.take k).sum + l.getD k 0 := by
  rw [List.sum_take_succ l k hk, List.getD_eq_getElem l 0 hk]

/-- The strict comparison `X[k] > Xtmp[k]` of `proj` is downward closed on a
descending-sorted row. -/
theorem good_downclosed {xs : List α} (hs : List.Sorted (· ≥ ·) xs)
    {k : ℕ} (hk1 : k + 1 < xs.length)
    (h : cumTmp xs (k + 1) < xs.getD (k + 1) 0) :
    cumTmp xs k < xs.getD k 0 := by
  have hk : k < xs.length := by omega
  have e2 : (xs.take (k + 2)).sum = (xs.take (k + 1)).sum + xs.getD (k + 1) 0 :=
    take_succ_sum hk1
  have hmono : xs.getD (k + 1) 0 ≤ xs.getD k 0 := sorted_getD_anti hs (Nat.le_succ k) hk1
  have hk1pos : (0 : α) < (k : α) + 1 := by positivity
  have hk2pos : (0 : α) < ((k + 1 : ℕ) : α) + 1 := by positivity
  rw [cumTmp, div_lt_iff hk2pos] at h
  rw [cumTmp, div_lt_iff hk1pos]
  push_cast at h ⊢
  rw [e2] at h
  have hexp : xs.getD (k + 1) 0 * ((k : α) + 1 + 1) =
      xs.getD (k + 1) 0 * ((k : α) + 1) + xs.getD (k + 1) 0 := by ring
  rw [hexp] at h
  have hmul : xs.getD (k + 1) 0 * ((k : α) + 1) ≤ xs.getD k 0 * ((k : α) + 1) :=
    mul_le_mul_of_nonneg_right hmono (le_of_lt hk1pos)
  linarith

/-- The comparison holds at index `0` of every nonempty row
(`x₀ > x₀ - 1` always). -/
theorem good_zero {xs : List α} (hx : xs ≠ []) : cumTmp xs 0 < xs.getD 0 0 := by
  have h0 : 0 < xs.length := List.length_pos.mpr hx
  have htake : (xs.take 1).sum = xs.getD 0 0 := by
    rw [show (1 : ℕ) = 0 + 1 from rfl, take_succ_sum h0]
    simp
  rw [cumTmp, htake]
  simp only [Nat.cast_zero, zero_add, div_one]
  linarith

/-- For a descending-sorted row, index `k` satisfies the strict comparison
iff `k` lies below the count `np.sum(X > Xtmp)`: the selected indices form
exactly the prefix `{0, …, goodCount - 1}`. -/
theorem good_iff_lt_goodCount {xs : List α} (hs : List.Sorted (· ≥ ·) xs)
    {k : ℕ} (hk : k < xs.length) :
    (cumTmp xs k < xs.getD k 0) ↔ k < goodCount xs := by
  set p : ℕ → Bool := fun k => decide (cumTmp xs k < xs.getD k 0) with hp
  have hdc : ∀ j, j + 1 < xs.length → p (j + 1) = true → p j = true := by
    intro j hj hpj
    have := good_downclosed hs hj (by simpa [hp] using hpj)
    simpa [hp] using this
  have hfe := filter_range_downclosed p xs.length hdc
  have hgc : goodCount xs = ((List.range xs.length).filter p).length := rfl
  constructor
  · intro h
    have hmem : k ∈ (List.range xs.length).filter p :=
      List.mem_filter.mpr ⟨List.mem_range.mpr hk, by simpa [hp] using h⟩
    rw [hfe] at hmem
    rw [hgc]
    exact List.mem_range.mp hmem
  · intro h
    have hmem : k ∈ List.range (((List.range xs.length).filter p).length) :=
      List.mem_range.mpr (by rw [← hgc]; exact h)
    rw [← hfe] at hmem
    have := (List.mem_filter.mp hmem).2
    simpa [hp] using this

/-- The count is at least `1` on every nonempty row (index `0` always
satisfies the comparison), so `rho = count - 1` is never negative. -/
theorem goodCount_pos {xs : List α} (hs : List.Sorted (· ≥ ·) xs) (hx : xs ≠ []) :
    0 < goodCount xs := by
  have h0 : 0 < xs.length := List.length_pos.mpr hx
  exact (good_iff_lt_goodCount hs h0).mp (good_zero hx)

/-- The count never exceeds the row length. -/
theorem goodCount_le_length (xs : List α) : goodCount xs ≤ xs.length := by
  have := List.length_filter_le
    (fun k => decide (cumTmp xs k < xs.getD k 0)) (List.range xs.length)
  simpa [goodCount] using this

/-- Entries of the sorted row strictly exceed `theta` below the count. -/
theorem theta_lt_of_lt_goodCount {xs : List α} (hs : List.Sorted (· ≥ ·) xs)
    (hx : xs ≠ []) {k : ℕ} (hk : k < goodCount xs) :
    cumTmp xs (goodCount xs - 1) < xs.getD k 0 := by
  have hgpos : 0 < goodCount xs := goodCount_pos hs hx
  have hgle : goodCount xs ≤ xs.length := goodCount_le_length xs
  have hrho : goodCount xs - 1 < xs.length := by omega
  have hrho_good : cumTmp xs (goodCount xs - 1) < xs.getD (goodCount xs - 1) 0 :=
    (good_iff_lt_goodCount hs hrho).mpr (by omega)
  have hanti : xs.getD (goodCount xs - 1) 0 ≤ xs.getD k 0 :=
    sorted_getD_anti hs (by omega) hrho
  linarith

/-- The entry at position `goodCount` (when it exists) lies below `theta`. -/
theorem getD_goodCount_le_theta {xs : List α} (hs : List.Sorted (· ≥ ·) xs)
    (hx : xs ≠ []) (hg : goodCount xs < xs.length) :
    xs.getD (goodCount xs) 0 ≤ cumTmp xs (goodCount xs - 1) := by
  have hgpos : 0 < goodCount xs := goodCount_pos hs hx
  set g := goodCount xs with hgdef
  have hnot : ¬(cumTmp xs g < xs.getD g 0) := by
    intro hcon
    have := (good_iff_lt_goodCount hs hg).mp hcon
    omega
  push_neg at hnot
  have e : (xs.take (g + 1)).sum = (xs.take g).sum + xs.getD g 0 := take_succ_sum hg
  have hgα : (0 : α) < (g : α) := by
    exact_mod_cast Nat.cast_pos.mpr hgpos
  have hg1α : (0 : α) < (g : α) + 1 := by positivity
  rw [cumTmp, e] at hnot
  rw [le_div_iff hg1α] at hnot
  have hge : g - 1 + 1 = g := by omega
  have hcast : ((g - 1 : ℕ) : α) + 1 = (g : α) := by
    rw [Nat.cast_sub (by omega)]
    push_cast
    ring
  rw [cumTmp, hge, hcast, le_div_iff hgα]
  have hexp : xs.getD g 0 * ((g : α) + 1) = xs.getD g 0 * (g : α) + xs.getD g 0 := by
    ring
  rw [hexp] at hnot
  linarith

/-- Entries of the sorted row at or beyond the count lie below `theta`. -/
theorem getD_le_theta_of_goodCount_le {xs : List α} (hs : List.Sorted (· ≥ ·) xs)
    (hx : xs ≠ []) {k : ℕ} (hgk : goodCount xs ≤ k) (hk : k < xs.length) :
    xs.getD k 0 ≤ cumTmp xs (goodCount xs - 1) := by
  have h1 : xs.getD k 0 ≤ xs.getD (goodCount xs) 0 := sorted_getD_anti hs hgk hk
  have hg : goodCount xs < xs.length := by omega
  exact le_trans h1 (getD_goodCount_le_theta hs hx hg)

/-- Sum of a mapped list as a `Finset.range` sum over positions. -/
theorem sum_map_getD (l : List α) (f : α → α) :
    (l.map f).sum = ∑ k ∈ Finset.range l.length, f (l.getD k 0) := by
  induction l with
  | nil => simp
  | cons a t ih =>
    rw [List.map_cons, List.sum_cons, ih, List.length_cons, Finset.sum_range_succ']
    simp only [List.getD_cons_succ, List.getD_cons_zero]
    exact (add_comm _ _)

/-- Position sums below `m` agree with the sum of `take m`. -/
theorem sum_range_getD_eq_take (l : List α) (m : ℕ) (hm : m ≤ l.length) :
    ∑ k ∈ Finset.range m, l.getD k 0 = (l.take m).sum := by
  induction m with
  | zero => simp
  | succ m ih =>
    rw [Finset.sum_range_succ, ih (by omega), ← take_succ_sum (by omega)]

/-- Sorting with `sortDesc` permutes the row. -/
theorem sortDesc_perm (l : List α) : (sortDesc l).Perm l :=
  List.perm_insertionSort _ l

/-- Sorting with `sortDesc` arranges the row in descending order. -/
theorem sortDesc_sorted (l : List α) : List.Sorted (· ≥ ·) (sortDesc l) :=
  List.sorted_insertionSort _ l

/-! ## Row-level properties of the simplex projection -/

/-- Every entry of a projected row is non-negative (it is a
`np.maximum(·, 0)`). -/
theorem projRow_nonneg (l : List α) : ∀ x ∈ projRow l, 0 ≤ x := by
  intro x hx
  obtain ⟨y, _, rfl⟩ := List.mem_map.mp hx
  exact le_max_right _ _

/-- The projection preserves the row length. -/
theorem projRow_length (l : List α) : (projRow l).length = l.length := by
  simp [projRow]

/-- Every projected nonempty row sums to exactly `1`. -/
theorem projRow_sum (l : List α) (hl : l ≠ []) : (projRow l).sum = 1 := by
  have hperm : (sortDesc l).Perm l := sortDesc_perm l
  have hs := sortDesc_sorted l
  set xs := sortDesc l with hxs
  have hxne : xs ≠ [] := by
    intro h
    apply hl
    have hlen := hperm.length_eq
    rw [h] at hlen
    exact List.length_eq_zero.mp hlen.symm
  have hn : 0 < xs.length := List.length_pos.mpr hxne
  have hgpos : 0 < goodCount xs := goodCount_pos hs hxne
  have hgle : goodCount xs ≤ xs.length := goodCount_le_length xs
  set g := goodCount xs with hg
  have hθeq : projTheta l = cumTmp xs (g - 1) := rfl
  set θ := projTheta l with hθ
  have hps : (projRow l).sum = (xs.map (fun y => max (y - θ) 0)).sum :=
    ((hperm.map (fun y => max (y - θ) 0)).sum_eq).symm
  rw [hps, sum_map_getD, Finset.range_eq_Ico,
    ← Finset.sum_Ico_consecutive _ (Nat.zero_le g) hgle]
  have hupper : ∑ k ∈ Finset.Ico g xs.length, max (xs.getD k 0 - θ) 0 = 0 := by
    apply Finset.sum_eq_zero
    intro k hk
    obtain ⟨h1, h2⟩ := Finset.mem_Ico.mp hk
    have hle := getD_le_theta_of_goodCount_le hs hxne h1 h2
    rw [hθeq]
    exact max_eq_right (by rw [← hg] at hle; linarith)
  have hlower : ∑ k ∈ Finset.Ico 0 g, max (xs.getD k 0 - θ) 0 =
      ∑ k ∈ Finset.Ico 0 g, (xs.getD k 0 - θ) := by
    apply Finset.sum_congr rfl
    intro k hk
    have hk' : k < g := (Finset.mem_Ico.mp hk).2
    have hgt := theta_lt_of_lt_goodCount hs hxne hk'
    rw [hθeq]
    exact max_eq_left (by rw [← hg] at hgt; linarith)
  rw [hupper, hlower, add_zero, ← Finset.range_eq_Ico, Finset.sum_sub_distrib,
    Finset.sum_const, Finset.card_range, sum_range_getD_eq_take xs g hgle,
    nsmul_eq_mul, hθeq, cumTmp]
  have hge : g - 1 + 1 = g := by omega
  rw [hge]
  have hcast : ((g - 1 : ℕ) : α) + 1 = (g : α) := by
    rw [Nat.cast_sub (by omega)]
    push_cast
    ring
  rw [hcast]
  have hgα : (g : α) ≠ 0 := Nat.cast_ne_zero.mpr (by omega)
  field_simp

/-- If every entry from position `m` on vanishes, the drop from `m` sums
to zero. -/
theorem drop_sum_eq_zero {xs : List α} {m : ℕ}
    (h : ∀ j, m ≤ j → j < xs.length → xs.getD j 0 = 0) : (xs.drop m).sum = 0 := by
  apply List.sum_eq_zero
  intro x hx
  obtain ⟨⟨i, hi⟩, rfl⟩ := List.mem_iff_get.mp hx
  have hlen : m + i < xs.length := by
    have := List.length_drop m xs
    omega
  have hget : (xs.drop m).get ⟨i, hi⟩ = xs.get ⟨m + i, hlen⟩ :=
    (List.get_drop xs hlen).symm
  rw [hget, ← List.getD_eq_get xs 0 hlen]
  exact h (m + i) (by omega) hlen

/-- Membership of an in-range `getD`. -/
theorem getD_mem_of_lt {xs : List α} {k : ℕ} (hk : k < xs.length) :
    xs.getD k 0 ∈ xs := by
  rw [List.getD_eq_get xs 0 hk]
  exact xs.get_mem _ _

/-- For a nonneg row summing to one, every `Xtmp` entry is non-positive. -/
theorem cumTmp_nonpos_of_dist {xs : List α} (hnn : ∀ x ∈ xs, 0 ≤ x)
    (hsum : xs.sum = 1) {k : ℕ} : cumTmp xs k ≤ 0 := by
  have htd := List.sum_take_add_sum_drop xs (k + 1)
  have hdnn : 0 ≤ (xs.drop (k + 1)).sum :=
    List.sum_nonneg (fun x hx => hnn x (List.mem_of_mem_drop hx))
  have htle : (xs.take (k + 1)).sum ≤ 1 := by
    rw [← hsum, ← htd]
    linarith
  rw [cumTmp]
  apply div_nonpos_of_nonpos_of_nonneg
  · linarith
  · positivity

/-- For a descending-sorted nonneg row summing to one, the strict
comparison at `k` holds iff the entry at `k` is positive. -/
theorem good_iff_pos_of_dist {xs : List α} (hs : List.Sorted (· ≥ ·) xs)
    (hnn : ∀ x ∈ xs, 0 ≤ x) (hsum : xs.sum = 1) {k : ℕ} (hk : k < xs.length) :
    (cumTmp xs k < xs.getD k 0) ↔ 0 < xs.getD k 0 := by
  constructor
  · intro h
    by_contra hng
    push_neg at hng
    have hzero : xs.getD k 0 = 0 :=
      le_antisymm hng (hnn _ (getD_mem_of_lt hk))
    have hdz : (xs.drop (k + 1)).sum = 0 := by
      apply drop_sum_eq_zero
      intro j hj hjlen
      have h1 : xs.getD j 0 ≤ xs.getD k 0 := sorted_getD_anti hs (by omega) hjlen
      have h2 : 0 ≤ xs.getD j 0 := hnn _ (getD_mem_of_lt hjlen)
      rw [hzero] at h1
      linarith
    have htd := List.sum_take_add_sum_drop xs (k + 1)
    have htake1 : (xs.take (k + 1)).sum = 1 := by
      rw [← hsum, ← htd, hdz, add_zero]
    rw [cumTmp, htake1, hzero] at h
    simp at h
  · intro h
    have hnp : cumTmp xs k ≤ 0 := cumTmp_nonpos_of_dist hnn hsum
    linarith

/-- For a row that is already a probability distribution, the computed
threshold `theta` is zero. -/
theorem projTheta_of_dist (l : List α) (hnn : ∀ x ∈ l, 0 ≤ x) (hsum : l.sum = 1) :
    projTheta l = 0 := by
  have hperm : (sortDesc l).Perm l := sortDesc_perm l
  have hs := sortDesc_sorted l
  set xs := sortDesc l with hxs
  have hnn' : ∀ x ∈ xs, 0 ≤ x := fun x hx => hnn x (hperm.mem_iff.mp hx)
  have hsum' : xs.sum = 1 := by rw [hperm.sum_eq, hsum]
  have hlne : l ≠ [] := by
    intro h
    rw [h] at hsum
    simp at hsum
  have hxne : xs ≠ [] := by
    intro h
    rw [h] at hsum'
    simp at hsum'
  have hgpos : 0 < goodCount xs := goodCount_pos hs hxne
  have hgle : goodCount xs ≤ xs.length := goodCount_le_length xs
  set g := goodCount xs with hg
  -- entries at positions ≥ g vanish
  have hzero : ∀ j, g ≤ j → j < xs.length → xs.getD j 0 = 0 := by
    intro j hj hjlen
    have hnotgood : ¬(cumTmp xs j < xs.getD j 0) := by
      intro hcon
      have := (good_iff_lt_goodCount hs hjlen).mp hcon
      omega
    have := (good_iff_pos_of_dist hs hnn' hsum' hjlen).not.mp hnotgood
    push_neg at this
    exact le_antisymm this (hnn' _ (getD_mem_of_lt hjlen))
  have hdz : (xs.drop g).sum = 0 := drop_sum_eq_zero hzero
  have htd := List.sum_take_add_sum_drop xs g
  have htakeg : (xs.take g).sum = 1 := by
    rw [← hsum', ← htd, hdz, add_zero]
  have hθeq : projTheta l = cumTmp xs (g - 1) := rfl
  rw [hθeq, cumTmp]
  have hge : g - 1 + 1 = g := by omega
  rw [hge, htakeg]
  simp

/-- Projecting a row that is already a probability distribution returns it
unchanged. -/
theorem projRow_of_dist (l : List α) (hnn : ∀ x ∈ l, 0 ≤ x) (hsum : l.sum = 1) :
    projRow l = l := by
  have hθ : projTheta l = 0 := projTheta_of_dist l hnn hsum
  rw [projRow, hθ]
  have hcong : ∀ a ∈ l, max (a - 0) 0 = id a := by
    intro a ha
    rw [sub_zero, id]
    exact max_eq_left (hnn a ha)
  rw [List.map_congr_left hcong, List.map_id]

/-- C5: for every input matrix with nonempty rows, every row of the simplex
projection output is elementwise non-negative and sums to 1 (exactly, in
the rational/real model); consequently every output row of `WInLDL.predict`,
namely of `proj(X_new @ W)`, is a valid probability distribution whenever `W`
has at least one column. -/
theorem proj_rows_are_distributions {β : Type} [LinearOrderedField β]
    (Y Xnew W : List (List β)) (hY : ∀ l ∈ Y, l ≠ [])
    (hW : (W.headD []).length ≠ 0) :
    (∀ r ∈ proj Y, (∀ x ∈ r, 0 ≤ x) ∧ r.sum = 1) ∧
    (∀ r ∈ predictL Xnew W, (∀ x ∈ r, 0 ≤ x) ∧ r.sum = 1) := by
  constructor
  · intro r hr
    obtain ⟨l, hl, rfl⟩ := List.mem_map.mp hr
    exact ⟨projRow_nonneg l, projRow_sum l (hY l hl)⟩
  · intro r hr
    obtain ⟨l, hl, rfl⟩ := List.mem_map.mp hr
    obtain ⟨x, _, rfl⟩ := List.mem_map.mp hl
    have hlen : (rowMatMul x W).length = (W.headD []).length := by
      simp [rowMatMul]
    have hpos : (rowMatMul x W).length ≠ 0 := by
      rw [hlen]
      exact hW
    have hne : rowMatMul x W ≠ [] := List.length_pos.mp (Nat.pos_of_ne_zero hpos)
    exact ⟨projRow_nonneg _, projRow_sum _ hne⟩

/-- C5 witness: concrete instantiation with `Y = [[3, 1]]`,
`X_new = [[1, 2]]`, `W = [[1, 0], [0, 1]]` over `ℚ`. -/
theorem proj_rows_are_distributions_witness :
    (∀ r ∈ proj [[(3 : ℚ), 1]], (∀ x ∈ r, 0 ≤ x) ∧ r.sum = 1) ∧
    (∀ r ∈ predictL [[(1 : ℚ), 2]] [[(1 : ℚ), 0], [0, 1]],
      (∀ x ∈ r, 0 ≤ x) ∧ r.sum = 1) :=
  proj_rows_are_distributions [[(3 : ℚ), 1]] [[(1 : ℚ), 2]]
    [[(1 : ℚ), 0], [0, 1]] (by decide) (by decide)

/-- C6: projecting a matrix whose rows are already valid probability
distributions returns it unchanged, and the simplex projection is
idempotent on every matrix. -/
theorem proj_fixpoint_and_idempotent {β : Type} [LinearOrderedField β]
    (Y : List (List β)) (hY : ∀ l ∈ Y, (∀ x ∈ l, 0 ≤ x) ∧ l.sum = 1) :
    proj Y = Y ∧ ∀ Z : List (List β), proj (proj Z) = proj Z := by
  constructor
  · have hcong : ∀ l ∈ Y, projRow l = id l := by
      intro l hl
      rw [id]
      exact projRow_of_dist l (hY l hl).1 (hY l hl).2
    calc proj Y = Y.map projRow := rfl
      _ = Y.map id := List.map_congr_left hcong
      _ = Y := List.map_id Y
  · intro Z
    have hcong : ∀ r ∈ proj Z, projRow r = id r := by
      intro r hr
      obtain ⟨l, _, rfl⟩ := List.mem_map.mp hr
      rw [id]
      by_cases hln : l = []
      · subst hln
        rfl
      · exact projRow_of_dist _ (projRow_nonneg l) (projRow_sum l hln)
    calc proj (proj Z) = (proj Z).map projRow := rfl
      _ = (proj Z).map id := List.map_congr_left hcong
      _ = proj Z := List.map_id _

/-- C6 witness: concrete instantiation with the distribution matrix
`Y = [[1/2, 1/2], [1, 0]]` over `ℚ`. -/
theorem proj_fixpoint_and_idempotent_witness :
    proj [[(1 : ℚ)/2, 1/2], [1, 0]] = [[(1 : ℚ)/2, 1/2], [1, 0]] ∧
    ∀ Z : List (List ℚ), proj (proj Z) = proj Z :=
  proj_fixpoint_and_idempotent [[(1 : ℚ)/2, 1/2], [1, 0]]
    (by norm_num [List.forall_mem_cons])

/-- C7: the simplex projection is total on matrices with nonempty rows: the
prefix index `rho` (as the Python integer `count - 1`) lies in
`[0, c - 1]`, so the read `Xtmp[i, rho]` is in bounds; the divisors
`np.arange(1, c + 1)` are all nonzero; and the output has the same shape
as the input. -/
theorem proj_total_no_failure {β : Type} [LinearOrderedField β]
    (Y : List (List β)) (l : List β) (hl : l ≠ []) (hY : ∀ r ∈ Y, r ≠ []) :
    0 ≤ rhoInt l ∧ rhoInt l ≤ (l.length : ℤ) - 1 ∧
    goodCount (sortDesc l) - 1 < (sortDesc l).length ∧
    (∀ dv ∈ projDivisors l.length, dv ≠ 0) ∧
    (projRow l).length = l.length ∧
    (proj Y).length = Y.length ∧
    (∀ r ∈ Y, (projRow r).length = r.length) := by
  have hperm : (sortDesc l).Perm l := sortDesc_perm l
  have hlen : (sortDesc l).length = l.length := hperm.length_eq
  have hxne : sortDesc l ≠ [] := by
    intro h
    apply hl
    rw [h] at hlen
    exact List.length_eq_zero.mp hlen.symm
  have hgpos : 0 < goodCount (sortDesc l) := goodCount_pos (sortDesc_sorted l) hxne
  have hgle : goodCount (sortDesc l) ≤ l.length := by
    rw [← hlen]
    exact goodCount_le_length _
  have hlpos : 0 < l.length := by
    rw [← hlen]
    exact List.length_pos.mpr hxne
  refine ⟨?_, ?_, ?_, ?_, projRow_length l, ?_, ?_⟩
  · rw [rhoInt]
    omega
  · rw [rhoInt]
    omega
  · omega
  · intro dv hdv
    obtain ⟨k, _, rfl⟩ := List.mem_map.mp hdv
    omega
  · simp [proj]
  · intro r _
    exact projRow_length r

/-- C7 witness: concrete instantiation with `l = [2, -1]` and
`Y = [[5, 7, -2]]` over `ℚ`. -/
theorem proj_total_no_failure_witness :
    0 ≤ rhoInt [(2 : ℚ), -1] ∧
    rhoInt [(2 : ℚ), -1] ≤ (([(2 : ℚ), -1].length : ℤ)) - 1 ∧
    goodCount (sortDesc [(2 : ℚ), -1]) - 1 < (sortDesc [(2 : ℚ), -1]).length ∧
    (∀ dv ∈ projDivisors [(2 : ℚ), -1].length, dv ≠ 0) ∧
    (projRow [(2 : ℚ), -1]).length = [(2 : ℚ), -1].length ∧
    (proj [[(5 : ℚ), 7, -2]]).length = [[(5 : ℚ), 7, -2]].length ∧
    (∀ r ∈ [[(5 : ℚ), 7, -2]], (projRow r).length = r.length) :=
  proj_total_no_failure [[(5 : ℚ), 7, -2]] [(2 : ℚ), -1] (by decide) (by decide)

/-- C10: the class-level copies compute the same functions as the
standalone utility primitives: `IncomLDL.svt = utils.svt` on every matrix,
threshold, and SVD outcome, and `WInLDL.proj = utils.proj` on every
matrix. -/
theorem class_utils_primitives_agree :
    (∀ (n c : ℕ) (svdO : SvdOracle n c) (A : Fin n → Fin c → ℝ) (tau : ℝ),
      IncomLDL.svt svdO A tau = utilsSvt svdO A tau) ∧
    (∀ (β : Type) [instβ : LinearOrderedField β] (Y : List (List β)),
      proj Y = utilsProj Y) :=
  ⟨fun _ _ _ _ _ => rfl, fun _ _ _ => rfl⟩

/-- C1 (evidence of the failing input): with `n = 2`, `c = 2`,
`mask = [[1, 0], [1, 0]]` (label column `1` entirely unobserved) and
`y = 1/2` everywhere, the stored mask-zeroed label column `1` is all
zeros, so `np.count_nonzero` of that column is `0`, the per-label average
of `_before_train` is the IEEE quotient `0.0 / 0 = NaN`, and the adaptive
weight `Q2` computed by `_update_Q` for that column is `NaN` at every
iteration `t` of every budget `T` — it is not finite and does not follow
the schedule `(1 + t/T) ^ avg`. -/
theorem allmissing_column_weight_is_nan :
    WInLDL.avgCount (maskedY (fun _ _ => (1/2 : ℝ))
      (fun (_ : Fin 2) (j : Fin 2) => if j = 0 then 1 else 0)) 1 = 0 ∧
    WInLDL.avgOpt (maskedY (fun _ _ => (1/2 : ℝ))
      (fun (_ : Fin 2) (j : Fin 2) => if j = 0 then 1 else 0)) 1 = none ∧
    (∀ (t T : ℕ) (i : Fin 2),
      WInLDL.Q2opt (maskedY (fun _ _ => (1/2 : ℝ))
        (fun (_ : Fin 2) (j : Fin 2) => if j = 0 then 1 else 0))
        (fun _ j => if j = 0 then 1 else 0) t T i 1 = none) := by
  have hmy : ∀ i : Fin 2, maskedY (fun _ _ => (1/2 : ℝ))
      (fun (_ : Fin 2) (j : Fin 2) => if j = 0 then 1 else 0) i 1 = 0 := by
    intro i
    show (1/2 : ℝ) * (if (1 : Fin 2) = 0 then 1 else 0) = 0
    rw [if_neg (by decide)]
    ring
  have hcount : WInLDL.avgCount (maskedY (fun _ _ => (1/2 : ℝ))
      (fun (_ : Fin 2) (j : Fin 2) => if j = 0 then 1 else 0)) 1 = 0 := by
    rw [WInLDL.avgCount, Finset.card_eq_zero, Finset.filter_eq_empty_iff]
    intro i _
    rw [hmy i]
    simp
  refine ⟨hcount, ?_, ?_⟩
  · rw [WInLDL.avgOpt, if_pos hcount]
  · intro t T i
    rw [WInLDL.Q2opt, WInLDL.avgOpt, if_pos hcount, Option.map_none']

/-- C3 counterexample: with the fully observed single sample
`y = [[3/5, 2/5]]`, label `0` has the strictly larger average observed
value (`3/5 > 2/5`), yet the fixed confidence term `Q1 = 2^(1 - y) * mask`
built in `_before_train` assigns label `0` the strictly *smaller* weight
(`2^(2/5) < 2^(3/5)`): the fixed term does not give higher confidence to
labels with larger average observed value. -/
theorem q1_not_monotone_in_average :
    WInLDL.avgOpt (maskedY (fun (_ : Fin 1) (j : Fin 2) => if j = 0 then (3/5 : ℝ) else 2/5)
      (fun _ _ => 1)) 0 = some (3/5) ∧
    WInLDL.avgOpt (maskedY (fun (_ : Fin 1) (j : Fin 2) => if j = 0 then (3/5 : ℝ) else 2/5)
      (fun _ _ => 1)) 1 = some (2/5) ∧
    (2/5 : ℝ) < 3/5 ∧
    WInLDL.Q1 (maskedY (fun (_ : Fin 1) (j : Fin 2) => if j = 0 then (3/5 : ℝ) else 2/5)
        (fun _ _ => 1)) (fun _ _ => 1) 0 0 <
      WInLDL.Q1 (maskedY (fun (_ : Fin 1) (j : Fin 2) => if j = 0 then (3/5 : ℝ) else 2/5)
        (fun _ _ => 1)) (fun _ _ => 1) 0 1 := by
  have hmy : ∀ (i : Fin 1) (j : Fin 2),
      maskedY (fun (_ : Fin 1) (j : Fin 2) => if j = 0 then (3/5 : ℝ) else 2/5)
        (fun _ _ => 1) i j = if j = 0 then (3/5 : ℝ) else 2/5 := by
    intro i j
    show (if j = 0 then (3/5 : ℝ) else 2/5) * 1 = _
    ring
  have hcount : ∀ j : Fin 2, WInLDL.avgCount
      (maskedY (fun (_ : Fin 1) (j : Fin 2) => if j = 0 then (3/5 : ℝ) else 2/5)
        (fun _ _ => 1)) j = 1 := by
    intro j
    rw [WInLDL.avgCount]
    rw [show (Finset.univ.filter (fun i : Fin 1 =>
        maskedY (fun (_ : Fin 1) (j : Fin 2) => if j = 0 then (3/5 : ℝ) else 2/5)
          (fun _ _ => 1) i j ≠ 0)) = Finset.univ from ?_]
    · simp
    · apply Finset.filter_eq_self.mpr
      intro i _
      rw [hmy i j]
      by_cases hj : j = 0
      · rw [if_pos hj]
        norm_num
      · rw [if_neg hj]
        norm_num
  refine ⟨?_, ?_, by norm_num, ?_⟩
  · rw [WInLDL.avgOpt, if_neg (by rw [hcount]; omega)]
    congr 1
    rw [hcount]
    have : ∀ i : Fin 1, maskedY (fun (_ : Fin 1) (j : Fin 2) => if j = 0 then (3/5 : ℝ) else 2/5)
        (fun _ _ => 1) i 0 = 3/5 := by
      intro i
      rw [hmy i 0, if_pos rfl]
    rw [Fin.sum_univ_one, this 0]
    norm_num
  · rw [WInLDL.avgOpt, if_neg (by rw [hcount]; omega)]
    congr 1
    rw [hcount]
    have : ∀ i : Fin 1, maskedY (fun (_ : Fin 1) (j : Fin 2) => if j = 0 then (3/5 : ℝ) else 2/5)
        (fun _ _ => 1) i 1 = 2/5 := by
      intro i
      rw [hmy i 1, if_neg (by decide)]
    rw [Fin.sum_univ_one, this 0]
    norm_num
  · show (2 : ℝ) ^ (1 - maskedY _ _ 0 0) * 1 < (2 : ℝ) ^ (1 - maskedY _ _ 0 1) * 1
    rw [mul_one, mul_one, hmy 0 0, hmy 0 1, if_pos rfl, if_neg (by decide)]
    refine (Real.rpow_lt_rpow_left_iff (by norm_num)).mpr ?_
    norm_num

/-- C3 amended: the fixed confidence term `Q1` computed once in
`_before_train` is a *per-entry* weight, equal to `2^(1 - y[i, j])` at
observed entries (and `0` at unobserved ones), and on observed entries it
is strictly *decreasing* in the observed label value: smaller observed
values receive higher fixed confidence.  (The per-label average statistic
instead parameterizes the per-iteration term `Q2`.) -/
theorem q1_per_entry_strictly_decreasing {n c : ℕ} (Y mask : Fin n → Fin c → ℝ)
    (i : Fin n) (j j' : Fin c) (hm : mask i j = 1) (hm' : mask i j' = 1)
    (hlt : Y i j < Y i j') :
    WInLDL.Q1 Y mask i j = (2 : ℝ) ^ (1 - Y i j) ∧
    WInLDL.Q1 Y mask i j' < WInLDL.Q1 Y mask i j := by
  constructor
  · show (2 : ℝ) ^ (1 - Y i j) * mask i j = _
    rw [hm, mul_one]
  · show (2 : ℝ) ^ (1 - Y i j') * mask i j' < (2 : ℝ) ^ (1 - Y i j) * mask i j
    rw [hm, hm', mul_one, mul_one]
    exact (Real.rpow_lt_rpow_left_iff (by norm_num)).mpr (by linarith)

/-- C3 amended, witness: concrete instantiation with
`Y = [[0, 1]]`, all-ones mask, comparing labels `0` and `1`. -/
theorem q1_per_entry_strictly_decreasing_witness :
    WInLDL.Q1 (fun (_ : Fin 1) (j : Fin 2) => if j = 0 then (0 : ℝ) else 1)
      (fun _ _ => 1) 0 0 =
      (2 : ℝ) ^ (1 - (fun (_ : Fin 1) (j : Fin 2) => if j = 0 then (0 : ℝ) else 1) 0 0) ∧
    WInLDL.Q1 (fun (_ : Fin 1) (j : Fin 2) => if j = 0 then (0 : ℝ) else 1)
      (fun _ _ => 1) 0 1 <
    WInLDL.Q1 (fun (_ : Fin 1) (j : Fin 2) => if j = 0 then (0 : ℝ) else 1)
      (fun _ _ => 1) 0 0 :=
  q1_per_entry_strictly_decreasing
    (fun (_ : Fin 1) (j : Fin 2) => if j = 0 then (0 : ℝ) else 1)
    (fun _ _ => 1) 0 0 1 rfl rfl (by norm_num)

/-- C8: the per-iteration confidence term `Q2` of `_update_Q` is zero at
every observed entry, at every iteration; and at every unobserved entry,
given a defined non-negative per-label average for that column and a
positive iteration budget, it is non-decreasing as the iteration counter
grows, following the power-law schedule `(1 + t/T) ^ avg`. -/
theorem q2_vanishes_observed_and_monotone {n c : ℕ} (Y mask : Fin n → Fin c → ℝ)
    (t t' T : ℕ) (i : Fin n) (j : Fin c) (a : ℝ)
    (ha : WInLDL.avgOpt Y j = some a) (hnn : 0 ≤ a) (hT : 0 < T) (htt : t ≤ t') :
    (mask i j = 1 → WInLDL.Q2 Y mask t T i j = 0) ∧
    (mask i j = 0 → WInLDL.Q2 Y mask t T i j ≤ WInLDL.Q2 Y mask t' T i j) := by
  have havg : WInLDL.avgP Y j = a := by
    rw [WInLDL.avgOpt] at ha
    by_cases h : WInLDL.avgCount Y j = 0
    · rw [if_pos h] at ha
      exact absurd ha (by simp)
    · rw [if_neg h] at ha
      rw [WInLDL.avgP]
      exact Option.some_injective _ ha
  constructor
  · intro hm
    show (1 + (t : ℝ) / (T : ℝ)) ^ WInLDL.avgP Y j * (1 - mask i j) = 0
    rw [hm]
    ring
  · intro hm
    show (1 + (t : ℝ) / (T : ℝ)) ^ WInLDL.avgP Y j * (1 - mask i j) ≤
      (1 + (t' : ℝ) / (T : ℝ)) ^ WInLDL.avgP Y j * (1 - mask i j)
    rw [hm, sub_zero, mul_one, mul_one, havg]
    have hTpos : (0 : ℝ) < (T : ℝ) := Nat.cast_pos.mpr hT
    have hcast : (t : ℝ) ≤ (t' : ℝ) := Nat.cast_le.mpr htt
    have h1 : (0 : ℝ) ≤ 1 + (t : ℝ) / (T : ℝ) := by positivity
    have h2 : 1 + (t : ℝ) / (T : ℝ) ≤ 1 + (t' : ℝ) / (T : ℝ) := by
      have := (div_le_div_right hTpos).mpr hcast
      linarith
    exact Real.rpow_le_rpow h1 h2 hnn

/-- C8 witness: concrete instantiation with `n = 2`, `c = 1`,
`Y = [[1], [0]]`, `mask = [[1], [0]]`, average `1`, `t = 0 ≤ t' = 1`,
`T = 2`. -/
theorem q2_vanishes_observed_and_monotone_witness :
    ((fun (i : Fin 2) (_ : Fin 1) => if i = 0 then (1 : ℝ) else 0) (1 : Fin 2) 0 = 1 →
      WInLDL.Q2 (fun (i : Fin 2) (_ : Fin 1) => if i = 0 then (1 : ℝ) else 0)
        (fun (i : Fin 2) (_ : Fin 1) => if i = 0 then (1 : ℝ) else 0) 0 2 1 0 = 0) ∧
    ((fun (i : Fin 2) (_ : Fin 1) => if i = 0 then (1 : ℝ) else 0) (1 : Fin 2) 0 = 0 →
      WInLDL.Q2 (fun (i : Fin 2) (_ : Fin 1) => if i = 0 then (1 : ℝ) else 0)
        (fun (i : Fin 2) (_ : Fin 1) => if i = 0 then (1 : ℝ) else 0) 0 2 1 0 ≤
      WInLDL.Q2 (fun (i : Fin 2) (_ : Fin 1) => if i = 0 then (1 : ℝ) else 0)
        (fun (i : Fin 2) (_ : Fin 1) => if i = 0 then (1 : ℝ) else 0) 1 2 1 0) := by
  refine q2_vanishes_observed_and_monotone
    (fun (i : Fin 2) (_ : Fin 1) => if i = 0 then (1 : ℝ) else 0)
    (fun (i : Fin 2) (_ : Fin 1) => if i = 0 then (1 : ℝ) else 0)
    0 1 2 1 0 1 ?_ (by norm_num) (by norm_num) (by norm_num)
  rw [WInLDL.avgOpt]
  have hfil : (Finset.univ.filter (fun i : Fin 2 =>
      (fun (i : Fin 2) (_ : Fin 1) => if i = 0 then (1 : ℝ) else 0) i 0 ≠ 0)) =
      {(0 : Fin 2)} := by
    apply Finset.ext
    intro i
    simp only [Finset.mem_filter, Finset.mem_univ, true_and, Finset.mem_singleton]
    constructor
    · intro h
      by_contra hne
      rw [if_neg hne] at h
      exact h rfl
    · intro h
      rw [if_pos h]
      norm_num
  rw [WInLDL.avgCount, hfil]
  rw [if_neg (by simp)]
  congr 1
  rw [Fin.sum_univ_two, if_pos rfl, if_neg (by decide)]
  simp

/-- C9: with `tau = 0` the low-rank shrinker reconstructs its input: if the
SVD oracle returns a genuine singular value decomposition
`A = U @ diag(S) @ VT` with non-negative singular values, then
`svt(A, 0) = A`, and no singular value is shrunk
(`np.maximum(S - 0, 0) = S`). -/
theorem svt_tau_zero_is_identity {n c : ℕ} (svdO : SvdOracle n c)
    (A : Fin n → Fin c → ℝ) (U : Fin n → Fin (min n c) → ℝ)
    (S : Fin (min n c) → ℝ) (VT : Fin (min n c) → Fin c → ℝ)
    (hO : svdO A = (U, S, VT)) (hrecon : mulMat (mulMat U (diagM S)) VT = A)
    (hS : ∀ i, 0 ≤ S i) :
    IncomLDL.svt svdO A 0 = A ∧ (fun i => max (S i - 0) 0) = S := by
  have hmax : (fun i => max (S i - 0) 0) = S := by
    funext i
    rw [sub_zero]
    exact max_eq_left (hS i)
  refine ⟨?_, hmax⟩
  rw [IncomLDL.svt, hO]
  show mulMat (mulMat U (diagM (fun i => max (S i - 0) 0))) VT = A
  rw [hmax]
  exact hrecon

/-- C9 witness: concrete instantiation with the 1×1 zero matrix and the
oracle returning `U = [[1]]`, `S = [0]`, `VT = [[1]]`. -/
theorem svt_tau_zero_is_identity_witness :
    IncomLDL.svt (fun _ => (fun _ _ => (1 : ℝ), fun _ => (0 : ℝ), fun _ _ => (1 : ℝ)))
      (fun (_ : Fin 1) (_ : Fin 1) => (0 : ℝ)) 0 = (fun _ _ => (0 : ℝ)) ∧
    (fun i : Fin (min 1 1) => max ((fun _ => (0 : ℝ)) i - 0) 0) = (fun _ => (0 : ℝ)) := by
  refine svt_tau_zero_is_identity
    (fun _ => (fun _ _ => (1 : ℝ), fun _ => (0 : ℝ), fun _ _ => (1 : ℝ)))
    (fun _ _ => (0 : ℝ)) (fun _ _ => (1 : ℝ)) (fun _ => (0 : ℝ)) (fun _ _ => (1 : ℝ))
    rfl ?_ (fun _ => le_refl 0)
  funext i j
  show (∑ k, (∑ m, (1 : ℝ) * diagM (fun _ => (0 : ℝ)) m k) * 1) = 0
  apply Finset.sum_eq_zero
  intro k _
  rw [mul_one]
  apply Finset.sum_eq_zero
  intro m _
  rw [diagM]
  by_cases hmk : m = k
  · rw [if_pos hmk, mul_zero]
  · rw [if_neg hmk, mul_zero]

/-- The inequality rows `G z` of the QP reduce to `-z`. -/
theorem sum_Gmat {c : ℕ} (zv : Fin c → ℝ) (i : Fin c) :
    (∑ j, Gmat c i j * zv j) = -(zv i) := by
  have hterm : ∀ j, Gmat c i j * zv j = -(if i = j then zv j else 0) := by
    intro j
    rw [Gmat]
    by_cases h : i = j
    · rw [if_pos h, if_pos h]
      ring
    · rw [if_neg h, if_neg h]
      ring
  rw [Finset.sum_congr rfl (fun j _ => hterm j), Finset.sum_neg_distrib,
    Finset.sum_ite_eq]
  simp

/-- The feasible set carved out by `G, h, A, b` is exactly the standard
probability simplex. -/
theorem qpFeasible_eq_stdSimplex (c : ℕ) : qpFeasible c = stdSimplex ℝ (Fin c) := by
  ext zv
  constructor
  · rintro ⟨h1, h2⟩
    refine ⟨fun i => ?_, ?_⟩
    · have hi := h1 i
      rw [sum_Gmat] at hi
      have : -(zv i) ≤ 0 := hi
      linarith
    · have hb := h2 0
      have hsum : (∑ j, Acons c 0 j * zv j) = ∑ j, zv j := by
        apply Finset.sum_congr rfl
        intro j _
        rw [Acons, one_mul]
      rw [hsum] at hb
      exact hb
  · rintro ⟨hnn, hsum⟩
    constructor
    · intro i
      rw [sum_Gmat]
      show -(zv i) ≤ 0
      linarith [hnn i]
    · intro i
      have h : (∑ j, Acons c i j * zv j) = ∑ j, zv j := by
        apply Finset.sum_congr rfl
        intro j _
        rw [Acons, one_mul]
      rw [h]
      exact hsum

/-- The QP objective is continuous. -/
theorem qpObj_continuous {c : ℕ} (P : Fin c → Fin c → ℝ) (q : Fin c → ℝ) :
    Continuous (fun zv : Fin c → ℝ => qpObj P q zv) := by
  apply Continuous.add
  · apply Continuous.mul continuous_const
    apply continuous_finset_sum
    intro i _
    apply continuous_finset_sum
    intro j _
    exact ((continuous_apply i).mul continuous_const).mul (continuous_apply j)
  · apply continuous_finset_sum
    intro j _
    exact continuous_const.mul (continuous_apply j)

/-- C4: for every sample row (every penalty `rho`, mask row, label row,
dual row and consensus row assembled by `_update_W` into `P_i` and `q_i`,
of any sign or scale), the per-row QP of `IncomLDL._update_W` has a
solution, and every solution is elementwise non-negative and sums to 1. -/
theorem qp_solution_exists_and_is_distribution (c : ℕ) (hc : 0 < c) (rho : ℝ)
    (v yv z m : Fin c → ℝ) :
    (∃ zsol, IsQpSolution (IncomLDL.pRow rho m) (IncomLDL.qRow rho v yv z m) zsol) ∧
    (∀ zsol, IsQpSolution (IncomLDL.pRow rho m) (IncomLDL.qRow rho v yv z m) zsol →
      (∀ j, 0 ≤ zsol j) ∧ (∑ j, zsol j) = 1) := by
  have hfe := qpFeasible_eq_stdSimplex c
  have hcne : (c : ℝ) ≠ 0 := Nat.cast_ne_zero.mpr (by omega)
  have hne : (stdSimplex ℝ (Fin c)).Nonempty := by
    refine ⟨fun _ => 1 / (c : ℝ), fun i => by positivity, ?_⟩
    rw [Finset.sum_const, Finset.card_univ, Fintype.card_fin, nsmul_eq_mul]
    field_simp
  obtain ⟨zmin, hzmem, hzmin⟩ :=
    (isCompact_stdSimplex (Fin c)).exists_isMinOn hne
      (qpObj_continuous (IncomLDL.pRow rho m)
        (IncomLDL.qRow rho v yv z m)).continuousOn
  constructor
  · refine ⟨zmin, ?_, ?_⟩
    · rw [hfe]
      exact hzmem
    · intro w hw
      rw [hfe] at hw
      exact isMinOn_iff.mp hzmin w hw
  · intro zsol hzsol
    have hmem : zsol ∈ stdSimplex ℝ (Fin c) := by
      rw [← hfe]
      exact hzsol.1
    exact ⟨hmem.1, hmem.2⟩

/-- C4 witness: concrete instantiation with `c = 2`, `rho = 2` and zero
rows. -/
theorem qp_solution_exists_and_is_distribution_witness :
    (∃ zsol, IsQpSolution (IncomLDL.pRow 2 (fun _ : Fin 2 => 0))
      (IncomLDL.qRow 2 (fun _ => 0) (fun _ => 0) (fun _ => 0) (fun _ => 0)) zsol) ∧
    (∀ zsol, IsQpSolution (IncomLDL.pRow 2 (fun _ : Fin 2 => 0))
      (IncomLDL.qRow 2 (fun _ => 0) (fun _ => 0) (fun _ => 0) (fun _ => 0)) zsol →
      (∀ j, 0 ≤ zsol j) ∧ (∑ j, zsol j) = 1) :=
  qp_solution_exists_and_is_distribution 2 (by norm_num) 2
    (fun _ => 0) (fun _ => 0) (fun _ => 0) (fun _ => 0)

/-- C2: the values stored at unobserved entries of the label matrix never
influence the fitted mapping matrix: two label matrices agreeing at every
observed entry (mask = 1) produce identical fitted `W` under identical
`X`, mask, hyperparameters, iteration budget and numerical oracles, for
both the low-rank (`IncomLDL`) and the adaptive-weight (`WInLDL`)
strategy. -/
theorem fit_ignores_unobserved_values {n d c : ℕ} (qpO : QpOracle c)
    (pinvO : PinvOracle d) (svdO : SvdOracle n c) (solveO : SolveOracle d c)
    (X : Fin n → Fin d → ℝ) (y1 y2 mask : Fin n → Fin c → ℝ)
    (rho alpha : ℝ) (T : ℕ)
    (hbin : ∀ i j, mask i j = 0 ∨ mask i j = 1)
    (hagree : ∀ i j, mask i j = 1 → y1 i j = y2 i j) :
    IncomLDL.fit qpO pinvO svdO X y1 mask rho alpha T =
      IncomLDL.fit qpO pinvO svdO X y2 mask rho alpha T ∧
    WInLDL.fit solveO X y1 mask rho T = WInLDL.fit solveO X y2 mask rho T := by
  have hmy : maskedY y1 mask = maskedY y2 mask := by
    funext i j
    show y1 i j * mask i j = y2 i j * mask i j
    rcases hbin i j with h | h
    · rw [h, mul_zero, mul_zero]
    · rw [hagree i j h]
  constructor
  · unfold IncomLDL.fit
    rw [hmy]
  · unfold WInLDL.fit
    rw [hmy]

/-- C2 witness: concrete instantiation with `n = d = c = 1`, an all-zero
mask, and the placeholder labels `5` versus `7` at the unobserved entry;
the oracles are simple concrete functions. -/
theorem fit_ignores_unobserved_values_witness :
    IncomLDL.fit (fun _ _ => (fun _ : Fin 1 => (0 : ℝ))) (fun M => M)
      (fun _ => (fun _ _ => (0 : ℝ), fun _ => (0 : ℝ), fun _ _ => (0 : ℝ)))
      (fun (_ : Fin 1) (_ : Fin 1) => (1 : ℝ)) (fun _ _ => (5 : ℝ))
      (fun _ _ => (0 : ℝ)) 2 1 1 =
    IncomLDL.fit (fun _ _ => (fun _ : Fin 1 => (0 : ℝ))) (fun M => M)
      (fun _ => (fun _ _ => (0 : ℝ), fun _ => (0 : ℝ), fun _ _ => (0 : ℝ)))
      (fun (_ : Fin 1) (_ : Fin 1) => (1 : ℝ)) (fun _ _ => (7 : ℝ))
      (fun _ _ => (0 : ℝ)) 2 1 1 ∧
    WInLDL.fit (fun _ B => B) (fun (_ : Fin 1) (_ : Fin 1) => (1 : ℝ))
      (fun (_ : Fin 1) (_ : Fin 1) => (5 : ℝ)) (fun (_ : Fin 1) (_ : Fin 1) => (0 : ℝ)) 2 1 =
    WInLDL.fit (fun _ B => B) (fun (_ : Fin 1) (_ : Fin 1) => (1 : ℝ))
      (fun (_ : Fin 1) (_ : Fin 1) => (7 : ℝ)) (fun (_ : Fin 1) (_ : Fin 1) => (0 : ℝ)) 2 1 :=
  fit_ignores_unobserved_values (fun _ _ => (fun _ : Fin 1 => (0 : ℝ)))
    (fun M => M)
    (fun _ => (fun _ _ => (0 : ℝ), fun _ => (0 : ℝ), fun _ _ => (0 : ℝ)))
    (fun _ B => B) (fun _ _ => (1 : ℝ)) (fun _ _ => (5 : ℝ)) (fun _ _ => (7 : ℝ))
    (fun _ _ => (0 : ℝ)) 2 1 1 (fun _ _ => Or.inl rfl)
    (fun _ _ h => absurd h (by norm_num))

end PyLDL
